import Mathlib

/-!
Verification of the muko hosts-file manager (src/main.rs) against its
specification.  The line-oriented core is embedded shallowly: lines are
Lean strings, the regex
  `^(#)?\s*((?:\d+\.\d+\.\d+\.\d+)|(?:[0-9a-fA-F:]+))\s+(\S+)\s+#muko:\s*(\S*)`
is embedded as a deterministic maximal-munch parser (the leftmost-first
backtracking of the engine collapses here: every quantified subpattern is
followed by a character that its own character class excludes, so shrinking
a greedy run always fails immediately), file I/O is replaced by explicit
line sequences, and DNS resolution by an oracle giving each attempt an
optional answer.  We restrict character classes to their ASCII fragment,
which covers every input the claims range over.
-/

namespace Muko

/-- ASCII fragment of the regex class `\s` (and of Rust `char::is_whitespace`). -/
def isWs (c : Char) : Bool :=
  c = ' ' || c = '\t' || c = '\n' || c = '\x0b' || c = '\x0c' || c = '\r'

/-- Complement of `isWs`, the class `\S`. -/
def notWs (c : Char) : Bool := !isWs c

/-- The class `[0-9a-fA-F:]` of the IPv6-ish alternative. -/
def isHexColon (c : Char) : Bool :=
  c.isDigit || ('a' ≤ c && c ≤ 'f') || ('A' ≤ c && c ≤ 'F') || c = ':'

/-- The character `#`. -/
def isHash (c : Char) : Bool := c = '#'

/-- Everything but `#` (used for the inline-comment split in add). -/
def notHash (c : Char) : Bool := !(c = '#')

/-- Boolean list-prefix test. -/
def isPreB : List Char → List Char → Bool
  | [], _ => true
  | _ :: _, [] => false
  | p :: ps, c :: cs => p = c && isPreB ps cs

/-- Boolean substring test; embeds Rust `str::contains` with a literal pattern. -/
def isInfB (pat : List Char) : List Char → Bool
  | [] => pat.isEmpty
  | c :: cs => isPreB pat (c :: cs) || isInfB pat cs

/-- Substring containment on strings. -/
def strContains (s pat : String) : Bool := isInfB pat.data s.data

/-- Strip a literal from the front, embedding a regex literal such as `#muko:`. -/
def stripLit : List Char → List Char → Option (List Char)
  | [], cs => some cs
  | _ :: _, [] => none
  | p :: ps, c :: cs => if p = c then stripLit ps cs else none

/-- The literal `#muko:` (constant `MUKO_TAG` in the source). -/
def MUKO_TAG : String := "#muko:"

/-- The tag literal as a character list. -/
def litMuko : List Char := MUKO_TAG.data

/-- One `\d+\.` group of the IPv4 alternative: a maximal nonempty digit run
followed by a literal dot.  Maximality is forced: a digit run cannot contain
the dot the group must end with. -/
def parseGroupDot (cs : List Char) : Option (List Char × List Char) :=
  if (cs.takeWhile Char.isDigit).isEmpty then none
  else
    match cs.dropWhile Char.isDigit with
    | '.' :: rest => some (cs.takeWhile Char.isDigit ++ ['.'], rest)
    | _ => none

/-- The alternative `\d+\.\d+\.\d+\.\d+`.  The final `\d+` is a maximal
nonempty digit run: the continuation of the regex is `\s+`, which fails on
the digit left behind by any shorter run. -/
def parseIPv4 (cs : List Char) : Option (List Char × List Char) :=
  match parseGroupDot cs with
  | none => none
  | some (g1, r1) =>
    match parseGroupDot r1 with
    | none => none
    | some (g2, r2) =>
      match parseGroupDot r2 with
      | none => none
      | some (g3, r3) =>
        if (r3.takeWhile Char.isDigit).isEmpty then none
        else some (g1 ++ g2 ++ g3 ++ r3.takeWhile Char.isDigit,
          r3.dropWhile Char.isDigit)

/-- The alternative `[0-9a-fA-F:]+`: a maximal nonempty class run (shorter
runs leave a class character, on which the continuation `\s+` fails). -/
def parseHexColon (cs : List Char) : Option (List Char × List Char) :=
  if (cs.takeWhile isHexColon).isEmpty then none
  else some (cs.takeWhile isHexColon, cs.dropWhile isHexColon)

/-- The continuation `\s+(\S+)\s+#muko:\s*(\S*)` after the IP group, returning
the domain and alias captures.  Every run is maximal: `\s+` runs are followed
by `\S` or the literal `#`, the `\S+` run by `\s`, and the final two captures
end the pattern, so greedy matching is canonical.  Trailing text after the
alias is ignored, as the regex is not right-anchored. -/
def tailMatch (cs : List Char) : Option (List Char × List Char) :=
  if (cs.takeWhile isWs).isEmpty then none
  else if ((cs.dropWhile isWs).takeWhile notWs).isEmpty then none
  else if ((cs.dropWhile isWs).dropWhile notWs).isEmpty then none
  else
    match stripLit litMuko (((cs.dropWhile isWs).dropWhile notWs).dropWhile isWs) with
    | none => none
    | some r3 =>
      some ((cs.dropWhile isWs).takeWhile notWs, (r3.dropWhile isWs).takeWhile notWs)

/-- The IPv6-ish side of the group-2 alternation together with the shared
continuation; the engine falls back to it when the IPv4 side, or the
continuation after it, fails (leftmost-first alternation). -/
def hexAlt (cs1 : List Char) : Option (List Char × List Char × List Char) :=
  match parseHexColon cs1 with
  | some (ip, rest) =>
    match tailMatch rest with
    | some (d, a) => some (ip, d, a)
    | none => none
  | none => none

/-- The full group-2 alternation applied after the leading `\s*`. -/
def parseBody (cs : List Char) : Option (List Char × List Char × List Char) :=
  match parseIPv4 (cs.dropWhile isWs) with
  | some (ip, rest) =>
    match tailMatch rest with
    | some (d, a) => some (ip, d, a)
    | none => hexAlt (cs.dropWhile isWs)
  | none => hexAlt (cs.dropWhile isWs)

/-- The four captures of the managed-line regex. -/
structure MukoCaps where
  commented : Bool
  ip : List Char
  domain : List Char
  aliasV : List Char
deriving DecidableEq, Repr

/-- Full match of the managed-line regex at the start of a line.  `(#)?` is
greedy: when the line starts with `#` the hash is consumed (group 1 set); the
hashless alternative then cannot succeed anyway, since `\s*` matches zero at
`#` and both IP classes exclude `#`. -/
def mukoCaps : List Char → Option MukoCaps
  | [] => none
  | c :: rest =>
    if isHash c then (parseBody rest).map (fun x => MukoCaps.mk true x.1 x.2.1 x.2.2)
    else (parseBody (c :: rest)).map (fun x => MukoCaps.mk false x.1 x.2.1 x.2.2)

/-- One pass of the set-mode loop over a single line: the returned flag says
whether this line matched the identifier (the `found` flag of the source).
DEV mode uncomments by stripping every leading `#` and the following
whitespace (Rust `trim_start_matches` then `trim_start`); PROD mode prepends
a single `#`. -/
def setModeLine (identifier : String) (devMode : Bool) (line : String) : String × Bool :=
  if strContains line MUKO_TAG then
    match mukoCaps line.data with
    | some caps =>
      if String.mk caps.domain = identifier || String.mk caps.aliasV = identifier then
        if devMode then
          if caps.commented then
            (String.mk ((line.data.dropWhile isHash).dropWhile isWs), true)
          else (line, true)
        else
          if !caps.commented then (String.mk ('#' :: line.data), true)
          else (line, true)
      else (line, false)
    | none => (line, false)
  else (line, false)

/-- The set-mode operation on the whole line store; `none` models the
NotFound error path, on which nothing is written back. -/
def set_mode (lines : List String) (identifier : String) (devMode : Bool) :
    Option (List String) :=
  let st := lines.foldl
    (fun (acc : List String × Bool) line =>
      (acc.1 ++ [(setModeLine identifier devMode line).1],
       acc.2 || (setModeLine identifier devMode line).2)) ([], false)
  if st.2 then some st.1 else none

/-- Accumulator pass of whitespace splitting: `cur` holds the reversed
characters of the token being read. -/
def splitWsAux (cur : List Char) : List Char → List (List Char)
  | [] => if cur.isEmpty then [] else [cur.reverse]
  | c :: cs =>
    if isWs c then
      if cur.isEmpty then splitWsAux [] cs else cur.reverse :: splitWsAux [] cs
    else splitWsAux (c :: cur) cs

/-- Whitespace-splitting into maximal nonempty tokens (Rust
`split_whitespace`). -/
def splitWsL (cs : List Char) : List (List Char) := splitWsAux [] cs

/-- The cleaned-up content of a line inside add: trim leading whitespace;
when a hash follows, strip every leading hash (Rust `trim_start_matches`)
and the whitespace after them. -/
def addContent (line : String) : List Char :=
  match line.data.dropWhile isWs with
  | [] => []
  | c :: rest =>
    if isHash c then (((c :: rest) : List Char).dropWhile isHash).dropWhile isWs
    else c :: rest

/-- The duplicate test of `add_domain`: a line is dropped when it contains the
domain as a substring and its content, cut at the first remaining `#`
(inline comment), splits into at least two whitespace-separated tokens of
which one at index at least 1 equals the domain exactly. -/
def addDrop (domain : String) (line : String) : Bool :=
  strContains line domain &&
    (decide (2 ≤ (splitWsL ((addContent line).takeWhile notHash)).length) &&
     ((splitWsL ((addContent line).takeWhile notHash)).drop 1).any
       (fun t => t = domain.data))

/-- The freshly formatted managed line appended by add. -/
def new_entry (domain ip aliasA : String) : String :=
  ip ++ " " ++ domain ++ " " ++ MUKO_TAG ++ " " ++ aliasA

/-- The add operation: drop every duplicate line, keep the rest in order,
append the new entry; the flag reports whether a duplicate was replaced. -/
def add_domain (lines : List String) (domain ip aliasA : String) :
    List String × Bool :=
  let st := lines.foldl
    (fun (acc : List String × Bool) line =>
      if addDrop domain line then (acc.1, true) else (acc.1 ++ [line], acc.2))
    ([], false)
  (st.1 ++ [new_entry domain ip aliasA], st.2)

/-- Structured managed entry (struct `MukoManagedDomain` in the source). -/
structure MukoManagedDomain where
  ip : String
  domain : String
  aliasV : Option String
  active : Bool
  prod_ip : Option String
deriving DecidableEq, Repr

/-- The retry loop of the PROD resolution: walk the remaining attempt
numbers, break at the first answer differing from the override ip, keep the
last successful answer otherwise. -/
def resolveLoop (dns : Nat → Option String) (ip : String) :
    List Nat → Option String → Option String
  | [], acc => acc
  | a :: rest, acc =>
    match dns a with
    | some l => if l ≠ ip then some l else resolveLoop dns ip rest (some l)
    | none => resolveLoop dns ip rest acc

/-- Up to three DNS attempts for one inactive entry. -/
def resolveProdIp (dns : Nat → Option String) (ip : String) : Option String :=
  resolveLoop dns ip [1, 2, 3] none

/-- Parse one line into a managed entry, querying the DNS oracle (indexed by
domain and attempt number) only for inactive entries. -/
def entryOf (dns : String → Nat → Option String) (line : String) :
    Option MukoManagedDomain :=
  if strContains line MUKO_TAG then
    match mukoCaps line.data with
    | some caps =>
      let active := !caps.commented
      let ipS := String.mk caps.ip
      let domS := String.mk caps.domain
      let aliasS := String.mk caps.aliasV
      some
        { ip := ipS
          domain := domS
          aliasV := if aliasS = "" then none else some aliasS
          active := active
          prod_ip := if !active then resolveProdIp (dns domS) ipS else none }
    | none => none
  else none

/-- The report operation: collect the managed entries in file order; lines
that fail the grammar are skipped silently. -/
def parse_muko_entries (dns : String → Nat → Option String)
    (lines : List String) : List MukoManagedDomain :=
  lines.foldl
    (fun acc line =>
      match entryOf dns line with
      | some e => acc ++ [e]
      | none => acc) []

/-! ### Basic characterizations of the helpers -/

theorem isPreB_iff (p s : List Char) : isPreB p s = true ↔ ∃ t, s = p ++ t := by
  induction p generalizing s with
  | nil => simp [isPreB]
  | cons x xs ih =>
    cases s with
    | nil => simp [isPreB]
    | cons c cs =>
      simp only [isPreB, Bool.and_eq_true, decide_eq_true_eq, ih, List.cons_append,
        List.cons.injEq]
      constructor
      · rintro ⟨rfl, t, rfl⟩
        exact ⟨t, rfl, rfl⟩
      · rintro ⟨t, rfl, rfl⟩
        exact ⟨rfl, t, rfl⟩

theorem isInfB_iff (p s : List Char) : isInfB p s = true ↔ ∃ u v, s = u ++ p ++ v := by
  induction s with
  | nil =>
    simp only [isInfB, List.isEmpty_iff]
    constructor
    · rintro rfl
      exact ⟨[], [], rfl⟩
    · rintro ⟨u, v, h⟩
      rcases List.append_eq_nil.mp h.symm with ⟨h1, -⟩
      exact (List.append_eq_nil.mp h1).2
  | cons c cs ih =>
    simp only [isInfB, Bool.or_eq_true, isPreB_iff, ih]
    constructor
    · rintro (⟨t, ht⟩ | ⟨u, v, rfl⟩)
      · exact ⟨[], t, by simpa using ht⟩
      · exact ⟨c :: u, v, rfl⟩
    · rintro ⟨u, v, h⟩
      cases u with
      | nil => exact Or.inl ⟨v, by simpa using h⟩
      | cons x xs =>
        simp only [List.cons_append, List.cons.injEq] at h
        exact Or.inr ⟨xs, v, h.2⟩

theorem stripLit_eq_some (p s r : List Char) :
    stripLit p s = some r ↔ s = p ++ r := by
  induction p generalizing s with
  | nil => simp [stripLit]
  | cons x xs ih =>
    cases s with
    | nil => simp [stripLit]
    | cons c cs =>
      simp only [stripLit, List.cons_append, List.cons.injEq]
      split
      · next h => rw [ih]; subst h; simp
      · next h =>
        constructor
        · intro hx; cases hx
        · intro heq
          exact absurd heq.1.symm h

/-- Whitespace characters sit outside the IPv6-ish class. -/
theorem isWs_not_hexColon {c : Char} (h : isWs c = true) : isHexColon c = false := by
  have hc : c = ' ' ∨ c = '\t' ∨ c = '\n' ∨ c = '\x0b' ∨ c = '\x0c' ∨ c = '\r' := by
    simpa [isWs, or_assoc] using h
  rcases hc with rfl | rfl | rfl | rfl | rfl | rfl <;> decide

/-- Characters of the IP classes are never whitespace. -/
theorem isHexColon_not_ws {c : Char} (h : isHexColon c = true) : isWs c = false := by
  cases hw : isWs c with
  | false => rfl
  | true => rw [isWs_not_hexColon hw] at h; exact absurd h (by simp)

/-- Characters of the IP classes are never the hash sign. -/
theorem isHexColon_not_hash {c : Char} (h : isHexColon c = true) : isHash c = false := by
  by_cases hc : c = '#'
  · subst hc; exact absurd h (by decide)
  · simp [isHash, hc]

/-- Digits sit inside the IPv6-ish class. -/
theorem isDigit_isHexColon {c : Char} (h : c.isDigit = true) : isHexColon c = true := by
  simp [isHexColon, h]

/-! ### Decomposition of the parser -/

/-- A nonempty takeWhile pins down the head of the list. -/
theorem takeWhile_ne_nil_head {p : Char → Bool} {cs : List Char}
    (h : cs.takeWhile p ≠ []) : ∃ c t, cs = c :: t ∧ p c = true := by
  cases cs with
  | nil => simp at h
  | cons c t =>
    by_cases hp : p c = true
    · exact ⟨c, t, rfl, hp⟩
    · rw [List.takeWhile_cons_of_neg (by simpa using hp)] at h
      exact absurd rfl h

theorem parseGroupDot_decomp {cs g r : List Char}
    (h : parseGroupDot cs = some (g, r)) :
    cs = g ++ r ∧ g ≠ [] ∧ ∃ c t, cs = c :: t ∧ c.isDigit = true := by
  unfold parseGroupDot at h
  split at h
  · exact absurd h (by simp)
  · next hne =>
    split at h
    · next rest heq =>
      rw [Option.some.injEq, Prod.mk.injEq] at h
      obtain ⟨hg, hr⟩ := h
      subst hg
      subst hr
      have hsplit := List.takeWhile_append_dropWhile Char.isDigit cs
      rw [heq] at hsplit
      refine ⟨by simpa using hsplit.symm, by simp, ?_⟩
      exact takeWhile_ne_nil_head (by simpa using hne)
    · exact absurd h (by simp)

theorem parseIPv4_decomp {cs ip r : List Char}
    (h : parseIPv4 cs = some (ip, r)) :
    cs = ip ++ r ∧ ip ≠ [] ∧ ∃ c t, cs = c :: t ∧ c.isDigit = true := by
  unfold parseIPv4 at h
  split at h
  · exact absurd h (by simp)
  · next g1 r1 h1 =>
    split at h
    · exact absurd h (by simp)
    · next g2 r2 h2 =>
      split at h
      · exact absurd h (by simp)
      · next g3 r3 h3 =>
        split at h
        · exact absurd h (by simp)
        · next hne =>
          rw [Option.some.injEq, Prod.mk.injEq] at h
          obtain ⟨hg, hr⟩ := h
          subst hg
          subst hr
          obtain ⟨e1, ne1, hd⟩ := parseGroupDot_decomp h1
          obtain ⟨e2, ne2, -⟩ := parseGroupDot_decomp h2
          obtain ⟨e3, ne3, -⟩ := parseGroupDot_decomp h3
          have hsplit := List.takeWhile_append_dropWhile Char.isDigit r3
          refine ⟨?_, by simp [ne1], hd⟩
          rw [e1, e2, e3, ← hsplit]
          simp [List.append_assoc]

theorem parseHexColon_decomp {cs ip r : List Char}
    (h : parseHexColon cs = some (ip, r)) :
    cs = ip ++ r ∧ ip ≠ [] ∧ (∀ c ∈ ip, isHexColon c = true) ∧
      ∃ c t, cs = c :: t ∧ isHexColon c = true := by
  unfold parseHexColon at h
  split at h
  · exact absurd h (by simp)
  · next hne =>
    rw [Option.some.injEq, Prod.mk.injEq] at h
    obtain ⟨hg, hr⟩ := h
    subst hg
    subst hr
    refine ⟨(List.takeWhile_append_dropWhile isHexColon cs).symm, by simpa using hne,
      fun c hc => List.mem_takeWhile_imp hc, ?_⟩
    exact takeWhile_ne_nil_head (by simpa using hne)

/-- A successful tail match locates the tag literal inside the text. -/
theorem tailMatch_infix {cs d a : List Char} (h : tailMatch cs = some (d, a)) :
    ∃ u v, cs = u ++ litMuko ++ v := by
  unfold tailMatch at h
  split at h
  · exact absurd h (by simp)
  · split at h
    · exact absurd h (by simp)
    · split at h
      · exact absurd h (by simp)
      · split at h
        · exact absurd h (by simp)
        · next r3 hstrip =>
          have h2 := (stripLit_eq_some _ _ _).mp hstrip
          refine ⟨cs.takeWhile isWs ++ (cs.dropWhile isWs).takeWhile notWs ++
            ((cs.dropWhile isWs).dropWhile notWs).takeWhile isWs, r3, ?_⟩
          conv_lhs => rw [← List.takeWhile_append_dropWhile isWs cs]
          conv_lhs =>
            rw [← List.takeWhile_append_dropWhile notWs (cs.dropWhile isWs)]
          conv_lhs =>
            rw [← List.takeWhile_append_dropWhile isWs
              ((cs.dropWhile isWs).dropWhile notWs)]
          rw [h2]
          simp [List.append_assoc]

/-- A successful IPv6-ish alternative locates the tag literal inside the text. -/
theorem hexAlt_infix {cs1 ip d a : List Char} (h : hexAlt cs1 = some (ip, d, a)) :
    ∃ u v, cs1 = u ++ litMuko ++ v := by
  unfold hexAlt at h
  split at h
  · next ip1 rest1 h5 =>
    split at h
    · next d1 a1 ht1 =>
      obtain ⟨u, v, huv⟩ := tailMatch_infix ht1
      obtain ⟨hdec, -, -, -⟩ := parseHexColon_decomp h5
      exact ⟨ip1 ++ u, v, by rw [hdec, huv]; simp [List.append_assoc]⟩
    · exact absurd h (by simp)
  · exact absurd h (by simp)

/-- A successful body parse locates the tag literal inside the text. -/
theorem parseBody_infix {cs ip d a : List Char}
    (h : parseBody cs = some (ip, d, a)) : ∃ u v, cs = u ++ litMuko ++ v := by
  unfold parseBody at h
  have base : ∀ u v, cs.dropWhile isWs = u ++ litMuko ++ v →
      ∃ u2 v2, cs = u2 ++ litMuko ++ v2 := by
    intro u v huv
    refine ⟨cs.takeWhile isWs ++ u, v, ?_⟩
    conv_lhs => rw [← List.takeWhile_append_dropWhile isWs cs]
    rw [huv]
    simp [List.append_assoc]
  split at h
  · next ip0 rest h4 =>
    split at h
    · next d0 a0 ht =>
      obtain ⟨u, v, huv⟩ := tailMatch_infix ht
      obtain ⟨hdec, -, -⟩ := parseIPv4_decomp h4
      exact base (ip0 ++ u) v (by rw [hdec, huv]; simp [List.append_assoc])
    · next ht =>
      obtain ⟨u, v, huv⟩ := hexAlt_infix h
      exact base u v huv
  · obtain ⟨u, v, huv⟩ := hexAlt_infix h
    exact base u v huv

/-! ### Inversion of the full line match -/

theorem parseBody_dropWs (cs : List Char) :
    parseBody (cs.dropWhile isWs) = parseBody cs := by
  simp only [parseBody, List.dropWhile_idempotent]

/-- The first character after the leading whitespace of a matched body sits in
one of the IP classes. -/
theorem parseBody_head {cs : List Char} {x : List Char × List Char × List Char}
    (h : parseBody cs = some x) :
    ∃ c t, cs.dropWhile isWs = c :: t ∧ isHexColon c = true := by
  unfold parseBody at h
  split at h
  · next ip0 rest h4 =>
    obtain ⟨-, -, c, t, hct, hd⟩ := parseIPv4_decomp h4
    exact ⟨c, t, hct, isDigit_isHexColon hd⟩
  · unfold hexAlt at h
    split at h
    · next ip1 rest1 h5 =>
      obtain ⟨-, -, -, c, t, hct, hh⟩ := parseHexColon_decomp h5
      exact ⟨c, t, hct, hh⟩
    · exact absurd h (by simp)

theorem mukoCaps_cons_hash (rest : List Char) :
    mukoCaps ('#' :: rest) =
      (parseBody rest).map (fun x => MukoCaps.mk true x.1 x.2.1 x.2.2) := by
  simp [mukoCaps, isHash]

theorem mukoCaps_cons_not_hash {c : Char} (h : isHash c = false) (rest : List Char) :
    mukoCaps (c :: rest) =
      (parseBody (c :: rest)).map (fun x => MukoCaps.mk false x.1 x.2.1 x.2.2) := by
  simp [mukoCaps, h]

/-- An uncommented match comes from a body parse of the whole line, whose
first character is not a hash. -/
theorem mukoCaps_false_inv {cs : List Char} {c : MukoCaps}
    (h : mukoCaps cs = some c) (hc : c.commented = false) :
    parseBody cs = some (c.ip, c.domain, c.aliasV) ∧
      ∃ x t, cs = x :: t ∧ isHash x = false := by
  cases cs with
  | nil => simp [mukoCaps] at h
  | cons x t =>
    by_cases hx : isHash x = true
    · have hx2 : x = '#' := by simpa [isHash] using hx
      subst hx2
      rw [mukoCaps_cons_hash] at h
      cases hp : parseBody t with
      | none => rw [hp] at h; simp at h
      | some y =>
        rw [hp] at h
        simp only [Option.map_some', Option.some.injEq] at h
        subst h
        simp at hc
    · have hx2 : isHash x = false := by simpa using hx
      rw [mukoCaps_cons_not_hash hx2] at h
      cases hp : parseBody (x :: t) with
      | none => rw [hp] at h; simp at h
      | some y =>
        rw [hp] at h
        simp only [Option.map_some', Option.some.injEq] at h
        subst h
        exact ⟨rfl, x, t, rfl, hx2⟩

/-- A commented match comes from a hash followed by a matching body. -/
theorem mukoCaps_true_inv {cs : List Char} {c : MukoCaps}
    (h : mukoCaps cs = some c) (hc : c.commented = true) :
    ∃ rest, cs = '#' :: rest ∧ parseBody rest = some (c.ip, c.domain, c.aliasV) := by
  cases cs with
  | nil => simp [mukoCaps] at h
  | cons x t =>
    by_cases hx : isHash x = true
    · have hx2 : x = '#' := by simpa [isHash] using hx
      subst hx2
      rw [mukoCaps_cons_hash] at h
      cases hp : parseBody t with
      | none => rw [hp] at h; simp at h
      | some y =>
        rw [hp] at h
        simp only [Option.map_some', Option.some.injEq] at h
        subst h
        exact ⟨t, rfl, by rw [hp]⟩
    · have hx2 : isHash x = false := by simpa using hx
      rw [mukoCaps_cons_not_hash hx2] at h
      cases hp : parseBody (x :: t) with
      | none => rw [hp] at h; simp at h
      | some y =>
        rw [hp] at h
        simp only [Option.map_some', Option.some.injEq] at h
        subst h
        simp at hc

theorem mukoCaps_some_true {rest ip d a : List Char}
    (hp : parseBody rest = some (ip, d, a)) :
    mukoCaps ('#' :: rest) = some (MukoCaps.mk true ip d a) := by
  rw [mukoCaps_cons_hash, hp]
  rfl

theorem mukoCaps_some_false {x : Char} {t ip d a : List Char}
    (hx : isHash x = false) (hp : parseBody (x :: t) = some (ip, d, a)) :
    mukoCaps (x :: t) = some (MukoCaps.mk false ip d a) := by
  rw [mukoCaps_cons_not_hash hx, hp]
  rfl

/-- Any line matched by the grammar contains the tag marker as a substring. -/
theorem mukoCaps_contains {cs : List Char} {c : MukoCaps}
    (h : mukoCaps cs = some c) : isInfB litMuko cs = true := by
  rw [isInfB_iff]
  cases hc : c.commented with
  | false =>
    obtain ⟨hp, -⟩ := mukoCaps_false_inv h hc
    exact parseBody_infix hp
  | true =>
    obtain ⟨rest, rfl, hp⟩ := mukoCaps_true_inv h hc
    obtain ⟨u, v, huv⟩ := parseBody_infix hp
    exact ⟨'#' :: u, v, by rw [huv]; simp⟩

/-- Any grammar-matched line contains the tag marker (string form). -/
theorem strContains_tag {line : String} {c : MukoCaps}
    (h : mukoCaps line.data = some c) : strContains line MUKO_TAG = true :=
  mukoCaps_contains h

/-! ### Per-line behaviour of the mode switch -/

/-- Whitespace characters are never the hash sign. -/
theorem isWs_not_hash {c : Char} (h : isWs c = true) : isHash c = false := by
  have hc : c = ' ' ∨ c = '\t' ∨ c = '\n' ∨ c = '\x0b' ∨ c = '\x0c' ∨ c = '\r' := by
    simpa [isWs, or_assoc] using h
  rcases hc with rfl | rfl | rfl | rfl | rfl | rfl <;> decide

theorem dropWhile_eq_self_of_head {p : Char → Bool} {l : List Char}
    (h : ∀ c t, l = c :: t → p c = false) : l.dropWhile p = l := by
  cases l with
  | nil => rfl
  | cons c t => exact List.dropWhile_cons_of_neg (by simp [h c t rfl])

theorem setModeLine_none {identifier : String} {m : Bool} {line : String}
    (h : mukoCaps line.data = none) : setModeLine identifier m line = (line, false) := by
  unfold setModeLine
  rw [h]
  split <;> rfl

theorem setModeLine_nomatch {identifier : String} {m : Bool} {line : String}
    {c : MukoCaps} (h : mukoCaps line.data = some c)
    (hd : String.mk c.domain ≠ identifier) (ha : String.mk c.aliasV ≠ identifier) :
    setModeLine identifier m line = (line, false) := by
  unfold setModeLine
  rw [h]
  split
  · simp [hd, ha]
  · rfl

/-- On a matched line the mode switch produces the four-way toggle of the
source and reports the line as found. -/
theorem setModeLine_match {identifier : String} {m : Bool} {line : String}
    {c : MukoCaps} (h : mukoCaps line.data = some c)
    (hid : String.mk c.domain = identifier ∨ String.mk c.aliasV = identifier) :
    setModeLine identifier m line =
      (if m then
        (if c.commented then String.mk ((line.data.dropWhile isHash).dropWhile isWs)
         else line)
       else
        (if !c.commented then String.mk ('#' :: line.data) else line), true) := by
  rcases hid with hid | hid <;>
    simp [setModeLine, strContains_tag h, h, hid] <;>
    cases m <;> by_cases hcc : c.commented = true <;> simp [hcc]

/-- The mode switch is idempotent on every single line. -/
theorem setModeLine_idem (identifier : String) (m : Bool) (line : String) :
    setModeLine identifier m (setModeLine identifier m line).1 =
      setModeLine identifier m line := by
  cases hm : mukoCaps line.data with
  | none => rw [setModeLine_none hm, setModeLine_none hm]
  | some c =>
    by_cases hid : String.mk c.domain = identifier ∨ String.mk c.aliasV = identifier
    · rw [setModeLine_match hm hid]
      cases m with
      | true =>
        cases hc : c.commented with
        | false =>
          simp only [if_pos, if_neg, Bool.false_eq_true, if_false, if_true]
          rw [setModeLine_match hm hid, hc]
          simp
        | true =>
          simp only [if_true]
          obtain ⟨rest, hline, hpb⟩ := mukoCaps_true_inv hm hc
          obtain ⟨y, t, hyt, hy⟩ := parseBody_head hpb
          have hhead : ∀ c0 t0, rest = c0 :: t0 → isHash c0 = false := by
            intro c0 t0 h0
            by_cases hw : isWs c0 = true
            · exact isWs_not_hash hw
            · have h1 : rest.dropWhile isWs = c0 :: t0 := by
                rw [h0]
                exact List.dropWhile_cons_of_neg (by simpa using hw)
              have h2 := h1.symm.trans hyt
              injection h2 with e1 e2
              rw [e1]
              exact isHexColon_not_hash hy
          have hstrip : (line.data.dropWhile isHash).dropWhile isWs =
              rest.dropWhile isWs := by
            rw [hline, List.dropWhile_cons_of_pos (by simp [isHash]),
              dropWhile_eq_self_of_head hhead]
          have hpb2 : parseBody (y :: t) = some (c.ip, c.domain, c.aliasV) := by
            rw [← hyt, parseBody_dropWs]
            exact hpb
          have hcaps2 : mukoCaps (String.mk ((line.data.dropWhile isHash).dropWhile
              isWs)).data = some (MukoCaps.mk false c.ip c.domain c.aliasV) := by
            show mukoCaps ((line.data.dropWhile isHash).dropWhile isWs) = _
            rw [hstrip, hyt]
            exact mukoCaps_some_false (isHexColon_not_hash hy) hpb2
          rw [setModeLine_match hcaps2 (by simpa using hid)]
          simp
      | false =>
        cases hc : c.commented with
        | true =>
          simp only [hc, Bool.not_true, Bool.false_eq_true, if_false, if_true]
          rw [setModeLine_match hm hid, hc]
          simp
        | false =>
          simp only [hc, Bool.not_false, if_true, Bool.false_eq_true, if_false]
          obtain ⟨hpb, x, t, hxt, hx⟩ := mukoCaps_false_inv hm hc
          have hcaps2 : mukoCaps (String.mk ('#' :: line.data)).data =
              some (MukoCaps.mk true c.ip c.domain c.aliasV) := by
            show mukoCaps ('#' :: line.data) = _
            exact mukoCaps_some_true hpb
          rw [setModeLine_match hcaps2 (by simpa using hid)]
          simp
    · push_neg at hid
      rw [setModeLine_nomatch hm hid.1 hid.2, setModeLine_nomatch hm hid.1 hid.2]

/-! ### The folds of the three operations in closed form -/

theorem set_mode_foldl (identifier : String) (m : Bool) (lines : List String)
    (acc : List String) (b : Bool) :
    lines.foldl
      (fun (acc : List String × Bool) line =>
        (acc.1 ++ [(setModeLine identifier m line).1],
         acc.2 || (setModeLine identifier m line).2)) (acc, b) =
    (acc ++ lines.map (fun l => (setModeLine identifier m l).1),
     b || lines.any (fun l => (setModeLine identifier m l).2)) := by
  induction lines generalizing acc b with
  | nil => simp
  | cons x xs ih =>
    simp only [List.foldl_cons, List.map_cons, List.any_cons]
    rw [ih]
    simp [List.append_assoc, Bool.or_assoc]

theorem set_mode_eq (lines : List String) (identifier : String) (m : Bool) :
    set_mode lines identifier m =
      if lines.any (fun l => (setModeLine identifier m l).2) then
        some (lines.map (fun l => (setModeLine identifier m l).1))
      else none := by
  unfold set_mode
  rw [set_mode_foldl]
  simp

/-- Idempotence of the mode switch on the whole line store. -/
theorem set_mode_idem (lines : List String) (identifier : String) (m : Bool) :
    set_mode ((set_mode lines identifier m).getD lines) identifier m =
      set_mode lines identifier m := by
  have hpt := setModeLine_idem identifier m
  have h1 : (fun l => (setModeLine identifier m l).1) ∘
      (fun l => (setModeLine identifier m l).1) =
      fun l => (setModeLine identifier m l).1 := by
    funext l
    exact congrArg Prod.fst (hpt l)
  have h2 : (fun l => (setModeLine identifier m l).2) ∘
      (fun l => (setModeLine identifier m l).1) =
      fun l => (setModeLine identifier m l).2 := by
    funext l
    exact congrArg Prod.snd (hpt l)
  rw [set_mode_eq lines]
  by_cases hf : lines.any (fun l => (setModeLine identifier m l).2) = true
  · rw [if_pos hf]
    simp only [Option.getD_some]
    rw [set_mode_eq, List.any_map, h2, if_pos hf, List.map_map, h1]
  · rw [if_neg hf]
    simp only [Option.getD_none]
    rw [set_mode_eq, if_neg hf]

theorem add_domain_foldl (domain : String) (lines : List String)
    (acc : List String) (b : Bool) :
    lines.foldl
      (fun (acc : List String × Bool) line =>
        if addDrop domain line then (acc.1, true) else (acc.1 ++ [line], acc.2))
      (acc, b) =
    (acc ++ lines.filter (fun l => !addDrop domain l),
     b || lines.any (fun l => addDrop domain l)) := by
  induction lines generalizing acc b with
  | nil => simp
  | cons x xs ih =>
    simp only [List.foldl_cons, List.filter_cons, List.any_cons]
    by_cases hx : addDrop domain x = true
    · rw [if_pos hx, ih]
      simp [hx]
    · rw [if_neg hx, ih]
      simp only [Bool.not_eq_true] at hx
      simp [hx, List.append_assoc]

theorem add_domain_eq (lines : List String) (domain ip aliasA : String) :
    add_domain lines domain ip aliasA =
      (lines.filter (fun l => !addDrop domain l) ++ [new_entry domain ip aliasA],
       lines.any (fun l => addDrop domain l)) := by
  unfold add_domain
  rw [add_domain_foldl]
  simp

theorem parse_foldl (dns : String → Nat → Option String) (lines : List String)
    (acc : List MukoManagedDomain) :
    lines.foldl
      (fun acc line =>
        match entryOf dns line with
        | some e => acc ++ [e]
        | none => acc) acc =
      acc ++ lines.filterMap (entryOf dns) := by
  induction lines generalizing acc with
  | nil => simp
  | cons x xs ih =>
    simp only [List.foldl_cons, List.filterMap_cons]
    cases he : entryOf dns x with
    | none =>
      simp only [he]
      exact ih acc
    | some e =>
      simp only [he]
      rw [ih]
      simp [List.append_assoc]

theorem parse_muko_entries_eq (dns : String → Nat → Option String)
    (lines : List String) :
    parse_muko_entries dns lines = lines.filterMap (entryOf dns) := by
  unfold parse_muko_entries
  rw [parse_foldl]
  simp

/-! ### Definitions taken from the words of the specification -/

/-- Stated from the words of claim C2 (spec 4.3 step 2): strip ONE optional
leading hash, discard everything from the first subsequent hash onward,
split the rest on whitespace, and drop exactly when at least two tokens
remain and a token at index at least 1 equals the domain. -/
def addDropSpecC2 (domain : String) (line : String) : Bool :=
  strContains line domain &&
    (match line.data with
     | '#' :: rest =>
       decide (2 ≤ (splitWsL (rest.takeWhile notHash)).length) &&
         ((splitWsL (rest.takeWhile notHash)).drop 1).any (fun t => t = domain.data)
     | l =>
       decide (2 ≤ (splitWsL (l.takeWhile notHash)).length) &&
         ((splitWsL (l.takeWhile notHash)).drop 1).any (fun t => t = domain.data))

/-- The amended duplicate rule: trim leading whitespace; when the line then
starts with a hash, strip ALL leading hashes and the whitespace after them;
discard everything from the first remaining hash onward; split on
whitespace; drop exactly when at least two tokens remain and a token at
index at least 1 equals the domain. -/
def addDropSpecC2A (domain : String) (line : String) : Bool :=
  if strContains line domain then
    if ((line.data.dropWhile isWs).takeWhile isHash).isEmpty then
      decide (2 ≤ (splitWsL ((line.data.dropWhile isWs).takeWhile notHash)).length) &&
        ((splitWsL ((line.data.dropWhile isWs).takeWhile notHash)).drop 1).any
          (fun t => t = domain.data)
    else
      decide (2 ≤ (splitWsL ((((line.data.dropWhile isWs).dropWhile
          isHash).dropWhile isWs).takeWhile notHash)).length) &&
        ((splitWsL ((((line.data.dropWhile isWs).dropWhile
          isHash).dropWhile isWs).takeWhile notHash)).drop 1).any
          (fun t => t = domain.data)
  else false

/-- Stated from the words of claim C6: the first attempt whose answer
differs from the override wins, the scan stopping there. -/
def firstDiff (ip : String) : List (Option String) → Option String
  | [] => none
  | none :: rest => firstDiff ip rest
  | some v :: rest => if v ≠ ip then some v else firstDiff ip rest

/-- The last successful answer of a list of attempts. -/
def lastSome : List (Option String) → Option String
  | [] => none
  | a :: rest =>
    match lastSome rest with
    | some v => some v
    | none => a

/-- Stated from the words of claim C6 / spec 4.4: the first differing answer
if any, else the last successful answer, else nothing. -/
def specResolve (attempts : List (Option String)) (ip : String) : Option String :=
  match firstDiff ip attempts with
  | some v => some v
  | none => lastSome attempts

/-- The IPv4 lexical shape of the grammar: the IPv4 alternative consumes the
whole token. -/
def ipv4Shape (cs : List Char) : Bool := decide (parseIPv4 cs = some (cs, []))

/-- The IPv6-ish lexical shape of the grammar: a nonempty hex-or-colon run. -/
def hexShape (cs : List Char) : Bool := !cs.isEmpty && cs.all isHexColon

/-- The retry loop agrees with the resolution policy the spec words give. -/
theorem resolveProdIp_eq_spec (dns : Nat → Option String) (ip : String) :
    resolveProdIp dns ip = specResolve [dns 1, dns 2, dns 3] ip := by
  unfold resolveProdIp specResolve
  cases h1 : dns 1 <;> cases h2 : dns 2 <;> cases h3 : dns 3 <;>
    simp only [resolveLoop, h1, h2, h3, firstDiff, lastSome] <;>
    split_ifs <;>
    simp_all [resolveLoop, firstDiff, lastSome]

/-! ### Claims -/

/-- C1 fails as stated: the line `1.2.3.4 foo.test` does not match the
managed grammar, yet add for `foo.test` removes it instead of keeping it
byte-identical. -/
theorem C1_counterexample :
    mukoCaps ("1.2.3.4 foo.test").data = none ∧
    (add_domain ["1.2.3.4 foo.test"] "foo.test" "127.0.0.1" "foo").1 =
      ["127.0.0.1 foo.test #muko: foo"] ∧
    "1.2.3.4 foo.test" ∉
      (add_domain ["1.2.3.4 foo.test"] "foo.test" "127.0.0.1" "foo").1 := by
  decide

/-- C1 amended: the mode switch leaves every line that fails the managed
grammar byte-identical (and unflagged), the report builds entries without
rewriting any line, and add keeps every line its duplicate rule does not
drop — in particular every line not containing the domain as a substring —
while the lines it drops may include plain un-tagged host entries for the
domain. -/
theorem C1_amended_frame :
    (∀ identifier m line, mukoCaps line.data = none →
      setModeLine identifier m line = (line, false)) ∧
    (∀ domain line, strContains line domain = false → addDrop domain line = false) ∧
    (∀ lines domain ip aliasA,
      (add_domain lines domain ip aliasA).1 =
        lines.filter (fun l => !addDrop domain l) ++ [new_entry domain ip aliasA]) := by
  refine ⟨fun identifier m line h => setModeLine_none h, ?_, ?_⟩
  · intro domain line h
    simp [addDrop, h]
  · intro lines domain ip aliasA
    rw [add_domain_eq]

/-- Witness for the amended C1 at concrete lines. -/
theorem C1_amended_witness :
    mukoCaps ("ff02::1 ip6-allnodes").data = none ∧
    setModeLine "x" true "ff02::1 ip6-allnodes" = ("ff02::1 ip6-allnodes", false) ∧
    strContains "1.2.3.4 bar" "foo.test" = false ∧
    addDrop "foo.test" "1.2.3.4 bar" = false ∧
    (add_domain ["1.2.3.4 bar"] "foo.test" "127.0.0.1" "foo").1 =
      ["1.2.3.4 bar"].filter (fun l => !addDrop "foo.test" l) ++
        [new_entry "foo.test" "127.0.0.1" "foo"] :=
  ⟨by decide,
   C1_amended_frame.1 "x" true "ff02::1 ip6-allnodes" (by decide),
   by decide,
   C1_amended_frame.2.1 "foo.test" "1.2.3.4 bar" (by decide),
   C1_amended_frame.2.2 ["1.2.3.4 bar"] "foo.test" "127.0.0.1" "foo"⟩

/-- C2 fails as stated: on `##1.2.3.4 foo.test` the code strips both leading
hashes (Rust trim_start_matches) and drops the line as a duplicate of
`foo.test`, while the claimed strip-one-hash procedure sees only a comment
and keeps the line. -/
theorem C2_counterexample :
    addDrop "foo.test" "##1.2.3.4 foo.test" = true ∧
    addDropSpecC2 "foo.test" "##1.2.3.4 foo.test" = false ∧
    (add_domain ["##1.2.3.4 foo.test"] "foo.test" "9.9.9.9" "foo").1 =
      ["9.9.9.9 foo.test #muko: foo"] := by
  decide

/-- C2 amended: for every line, the duplicate decision of add is exactly the
procedure that trims leading whitespace, strips ALL leading hashes and the
whitespace following them (when the trimmed line starts with a hash),
discards everything from the first remaining hash onward, splits on
whitespace, and drops the line if and only if it also contains the domain as
a substring, at least two tokens remain and a token at index at least 1
equals the domain exactly. -/
theorem C2_amended_dup_rule (domain line : String) :
    addDrop domain line = addDropSpecC2A domain line := by
  unfold addDrop addDropSpecC2A addContent
  by_cases hc : strContains line domain = true
  · rw [if_pos hc, hc]
    simp only [Bool.true_and]
    cases htr : line.data.dropWhile isWs with
    | nil => simp [htr]
    | cons x xs =>
      by_cases hx : isHash x = true
      · simp [hx]
      · simp only [Bool.not_eq_true] at hx
        simp [hx]
  · have hc2 : strContains line domain = false := by simpa using hc
    rw [hc2, if_neg (by simp [hc2])]
    simp

/-- C5: when no line both contains the tag marker and parses under the
grammar with domain or alias equal to the identifier, the mode switch
signals NotFound (none: nothing is written back) and the line store is left
as it was. -/
theorem C5_notfound_unmodified {lines : List String} {identifier : String}
    {m : Bool}
    (h : ∀ line ∈ lines, ¬(strContains line MUKO_TAG = true ∧
      ∃ c, mukoCaps line.data = some c ∧
        (String.mk c.domain = identifier ∨ String.mk c.aliasV = identifier))) :
    set_mode lines identifier m = none ∧
      (set_mode lines identifier m).getD lines = lines := by
  have hflag : ∀ line ∈ lines, (setModeLine identifier m line).2 = false := by
    intro line hl
    cases hm : mukoCaps line.data with
    | none => rw [setModeLine_none hm]
    | some c =>
      by_cases hid : String.mk c.domain = identifier ∨ String.mk c.aliasV = identifier
      · exact absurd ⟨strContains_tag hm, c, hm, hid⟩ (h line hl)
      · push_neg at hid
        rw [setModeLine_nomatch hm hid.1 hid.2]
  have hany : lines.any (fun l => (setModeLine identifier m l).2) = false := by
    rw [List.any_eq_false]
    intro x hx
    simp [hflag x hx]
  rw [set_mode_eq, hany]
  simp

/-- Witness for C5 at a store with no managed entry for the identifier. -/
theorem C5_witness :
    set_mode ["hello world"] "foo" true = none ∧
      (set_mode ["hello world"] "foo" true).getD ["hello world"] =
        ["hello world"] := by
  apply C5_notfound_unmodified
  intro line hl
  rw [List.mem_singleton] at hl
  subst hl
  rintro ⟨-, c, hc, -⟩
  rw [show mukoCaps ("hello world").data = none from by decide] at hc
  cases hc

/-- C7: a line that contains the tag marker but fails the grammar is treated
as not managed and never raises an error: the mode switch passes it through
unchanged without counting it as a match, and the report excludes it. -/
theorem C7_malformed_lenient {line : String}
    (hmark : strContains line MUKO_TAG = true)
    (hm : mukoCaps line.data = none) :
    (∀ identifier m, setModeLine identifier m line = (line, false)) ∧
    (∀ dns pre post, parse_muko_entries dns (pre ++ line :: post) =
      parse_muko_entries dns (pre ++ post)) := by
  refine ⟨fun identifier m => setModeLine_none hm, fun dns pre post => ?_⟩
  rw [parse_muko_entries_eq, parse_muko_entries_eq, List.filterMap_append,
    List.filterMap_append]
  congr 1
  rw [List.filterMap_cons]
  simp [entryOf, hm]

/-- Witness for C7 on a malformed tag-bearing line. -/
theorem C7_witness :
    strContains "#muko: orphan" MUKO_TAG = true ∧
    mukoCaps ("#muko: orphan").data = none ∧
    setModeLine "orphan" true "#muko: orphan" = ("#muko: orphan", false) ∧
    parse_muko_entries (fun _ _ => none) ["#muko: orphan"] = [] := by
  refine ⟨by decide, by decide,
    (@C7_malformed_lenient ("#muko: orphan") (by decide) (by decide)).1
      "orphan" true, ?_⟩
  have h2 := (@C7_malformed_lenient ("#muko: orphan") (by decide)
    (by decide)).2 (fun _ _ => none) [] []
  simpa using h2

/-- C8: applying the mode switch twice, in either direction, produces the
same line sequence and the same outcome as applying it once. -/
theorem C8_toggle_idempotent (lines : List String) (identifier : String)
    (m : Bool) :
    set_mode ((set_mode lines identifier m).getD lines) identifier m =
      set_mode lines identifier m ∧
    (set_mode ((set_mode lines identifier m).getD lines) identifier m).getD
        ((set_mode lines identifier m).getD lines) =
      (set_mode lines identifier m).getD lines := by
  refine ⟨set_mode_idem lines identifier m, ?_⟩
  rw [set_mode_idem lines identifier m]
  cases h : set_mode lines identifier m <;> simp

/-- C10: a managed line whose alias capture is empty is matched by the empty
identifier: the mode switch flags it found and the operation succeeds. -/
theorem C10_empty_alias_matches {line : String} {c : MukoCaps} {m : Bool}
    (h : mukoCaps line.data = some c) (ha : c.aliasV = []) :
    (setModeLine "" m line).2 = true ∧
    setModeLine "" m line =
      (if m then
        (if c.commented then String.mk ((line.data.dropWhile isHash).dropWhile isWs)
         else line)
       else
        (if !c.commented then String.mk ('#' :: line.data) else line), true) ∧
    ∀ pre post, (set_mode (pre ++ line :: post) "" m).isSome = true := by
  have hid : String.mk c.domain = "" ∨ String.mk c.aliasV = "" :=
    Or.inr (by rw [ha])
  refine ⟨by simp [setModeLine_match h hid], setModeLine_match h hid, ?_⟩
  intro pre post
  rw [set_mode_eq]
  have hany : (pre ++ line :: post).any
      (fun l => (setModeLine "" m l).2) = true := by
    apply List.any_eq_true.mpr
    refine ⟨line, by simp, ?_⟩
    rw [setModeLine_match h hid]
  rw [if_pos hany]
  rfl

/-- Witness for C10 on a managed line with an empty alias capture. -/
theorem C10_witness :
    mukoCaps ("1.2.3.4 foo #muko:").data =
      some (MukoCaps.mk false ("1.2.3.4").data ("foo").data []) ∧
    (setModeLine "" true "1.2.3.4 foo #muko:").2 = true ∧
    (set_mode ["1.2.3.4 foo #muko:"] "" true).isSome = true := by
  refine ⟨by decide, ?_, ?_⟩
  · exact (@C10_empty_alias_matches ("1.2.3.4 foo #muko:")
      (MukoCaps.mk false ("1.2.3.4").data ("foo").data []) true
      (by decide) rfl).1
  · exact (@C10_empty_alias_matches ("1.2.3.4 foo #muko:")
      (MukoCaps.mk false ("1.2.3.4").data ("foo").data []) true
      (by decide) rfl).2.2 [] []

/-- C6: with DNS modelled as an oracle giving each attempt an optional
answer, the prod ip of an entry equals the first answer differing from the
override if any attempt yields one, else the last successful answer (the
override itself), else nothing; and an active entry carries no prod ip, for
every oracle. -/
theorem C6_resolution_policy :
    (∀ dns ip, resolveProdIp dns ip = specResolve [dns 1, dns 2, dns 3] ip) ∧
    (∀ dns lines e, e ∈ parse_muko_entries dns lines →
      e.prod_ip = if e.active then none
        else specResolve [dns e.domain 1, dns e.domain 2, dns e.domain 3] e.ip) := by
  refine ⟨resolveProdIp_eq_spec, ?_⟩
  intro dns lines e hmem
  rw [parse_muko_entries_eq] at hmem
  obtain ⟨line, -, he⟩ := List.mem_filterMap.mp hmem
  unfold entryOf at he
  split at he
  · split at he
    · next caps heq =>
      rw [Option.some.injEq] at he
      subst he
      cases hcm : caps.commented <;>
        simp [hcm, resolveProdIp_eq_spec]
    · exact absurd he (by simp)
  · exact absurd he (by simp)

/-- Witness for C6: an inactive entry under the always-failing oracle. -/
theorem C6_witness :
    (⟨"1.2.3.4", "foo", some "f", false, none⟩ : MukoManagedDomain) ∈
      parse_muko_entries (fun _ _ => none) ["#1.2.3.4 foo #muko: f"] ∧
    (⟨"1.2.3.4", "foo", some "f", false, none⟩ : MukoManagedDomain).prod_ip =
      (if (⟨"1.2.3.4", "foo", some "f", false,
            none⟩ : MukoManagedDomain).active then none
       else specResolve [none, none, none] "1.2.3.4") := by
  refine ⟨by decide, ?_⟩
  exact C6_resolution_policy.2 (fun _ _ => none) ["#1.2.3.4 foo #muko: f"] _
    (by decide)

/-- C4: on a matched managed line, PROD on an uncommented line prepends
exactly one hash with no added whitespace, and DEV on a commented line
strips exactly one leading hash plus the whitespace immediately after it
and leaves the remainder verbatim; on the concrete line of the spec the
two toggles invert each other exactly. -/
theorem C4_toggle_surgery :
    (∀ identifier line (c : MukoCaps), mukoCaps line.data = some c →
      (String.mk c.domain = identifier ∨ String.mk c.aliasV = identifier) →
      (c.commented = false →
        (setModeLine identifier false line).1 = String.mk ('#' :: line.data)) ∧
      (c.commented = true → ∃ w r, line.data = '#' :: (w ++ r) ∧
        (∀ x ∈ w, isWs x = true) ∧
        (∃ y t, r = y :: t ∧ isWs y = false ∧ isHash y = false) ∧
        (setModeLine identifier true line).1 = String.mk r)) ∧
    setModeLine "foo.test" false "127.0.0.1 foo.test #muko: foo" =
      ("#127.0.0.1 foo.test #muko: foo", true) ∧
    setModeLine "foo.test" true "#127.0.0.1 foo.test #muko: foo" =
      ("127.0.0.1 foo.test #muko: foo", true) := by
  refine ⟨?_, by decide, by decide⟩
  intro identifier line c h hid
  constructor
  · intro hc
    rw [setModeLine_match h hid]
    simp [hc]
  · intro hc
    obtain ⟨rest, hline, hpb⟩ := mukoCaps_true_inv h hc
    obtain ⟨y, t, hyt, hy⟩ := parseBody_head hpb
    refine ⟨rest.takeWhile isWs, rest.dropWhile isWs, ?_, ?_, ?_, ?_⟩
    · rw [hline, List.takeWhile_append_dropWhile]
    · exact fun x hx => List.mem_takeWhile_imp hx
    · exact ⟨y, t, hyt, isHexColon_not_ws hy, isHexColon_not_hash hy⟩
    · rw [setModeLine_match h hid]
      simp only [hc, if_true]
      congr 1
      have hhead : ∀ c0 t0, rest = c0 :: t0 → isHash c0 = false := by
        intro c0 t0 h0
        by_cases hw : isWs c0 = true
        · exact isWs_not_hash hw
        · have h1 : rest.dropWhile isWs = c0 :: t0 := by
            rw [h0]
            exact List.dropWhile_cons_of_neg (by simpa using hw)
          have h2 := h1.symm.trans hyt
          injection h2 with e1 e2
          rw [e1]
          exact isHexColon_not_hash hy
      rw [hline, List.dropWhile_cons_of_pos (by simp [isHash]),
        dropWhile_eq_self_of_head hhead]

/-- Witness for C4 on the concrete line of the spec, in both directions. -/
theorem C4_witness :
    (setModeLine "foo.test" false "127.0.0.1 foo.test #muko: foo").1 =
      String.mk ('#' :: ("127.0.0.1 foo.test #muko: foo").data) ∧
    ∃ w r, ("#127.0.0.1 foo.test #muko: foo").data = '#' :: (w ++ r) ∧
      (∀ x ∈ w, isWs x = true) ∧
      (∃ y t, r = y :: t ∧ isWs y = false ∧ isHash y = false) ∧
      (setModeLine "foo.test" true "#127.0.0.1 foo.test #muko: foo").1 =
        String.mk r :=
  ⟨(C4_toggle_surgery.1 "foo.test" "127.0.0.1 foo.test #muko: foo"
      (MukoCaps.mk false ("127.0.0.1").data ("foo.test").data ("foo").data)
      (by decide) (Or.inl (by decide))).1 rfl,
   (C4_toggle_surgery.1 "foo.test" "#127.0.0.1 foo.test #muko: foo"
      (MukoCaps.mk true ("127.0.0.1").data ("foo.test").data ("foo").data)
      (by decide) (Or.inl (by decide))).2 rfl⟩

/-! ### The shape of the add result (claim C3) -/

theorem splitWsAux_token (r : List Char) :
    ∀ (x cur : List Char), (∀ c ∈ x, isWs c = false) → (cur ≠ [] ∨ x ≠ []) →
    splitWsAux cur (x ++ ' ' :: r) = (cur.reverse ++ x) :: splitWsAux [] r := by
  intro x
  induction x with
  | nil =>
    intro cur hall hne
    rcases hne with hne | hne
    · have hsp : isWs ' ' = true := by decide
      rw [List.nil_append]
      simp [splitWsAux, hsp, List.isEmpty_iff, hne]
    · exact absurd rfl hne
  | cons c t ih =>
    intro cur hall hne
    have hc : isWs c = false := hall c (by simp)
    rw [List.cons_append]
    simp only [splitWsAux, hc, Bool.false_eq_true, if_false]
    rw [ih (c :: cur) (fun d hd => hall d (by simp [hd])) (Or.inl (by simp))]
    simp

theorem splitWs_token {x : List Char} (r : List Char)
    (hall : ∀ c ∈ x, isWs c = false) (hne : x ≠ []) :
    splitWsL (x ++ ' ' :: r) = x :: splitWsL r := by
  unfold splitWsL
  rw [splitWsAux_token r x [] hall (Or.inr hne)]
  simp

theorem new_entry_data (domain ip aliasA : String) :
    (new_entry domain ip aliasA).data =
      ip.data ++ ' ' :: (domain.data ++ ' ' :: (litMuko ++ ' ' :: aliasA.data)) := by
  have hsp : (" " : String).data = [' '] := rfl
  simp [new_entry, litMuko, String.data_append, hsp]

/-- The complement of the hash test, pointwise. -/
theorem notHash_eq (x : Char) : notHash x = !isHash x := rfl

/-- The freshly encoded entry is itself recognized by the duplicate rule. -/
theorem addDrop_new_entry {domain ip : String} (aliasA : String)
    (hdne : domain.data ≠ [])
    (hdok : ∀ c ∈ domain.data, isWs c = false ∧ isHash c = false)
    (hine : ip.data ≠ [])
    (hiok : ∀ c ∈ ip.data, isWs c = false ∧ isHash c = false) :
    addDrop domain (new_entry domain ip aliasA) = true := by
  obtain ⟨c0, t0, hct⟩ : ∃ c0 t0, ip.data = c0 :: t0 := by
    cases hip : ip.data with
    | nil => exact absurd hip hine
    | cons a b => exact ⟨a, b, rfl⟩
  have hc0 := hiok c0 (by rw [hct]; simp)
  have hdata := new_entry_data domain ip aliasA
  have hcons : (new_entry domain ip aliasA).data =
      c0 :: (t0 ++ ' ' :: (domain.data ++ ' ' :: (litMuko ++ ' ' :: aliasA.data))) := by
    rw [hdata, hct]
    rfl
  have hdrop : (new_entry domain ip aliasA).data.dropWhile isWs =
      (new_entry domain ip aliasA).data := by
    rw [hcons]
    exact List.dropWhile_cons_of_neg (by simp [hc0.1])
  have hcontent : addContent (new_entry domain ip aliasA) =
      (new_entry domain ip aliasA).data := by
    unfold addContent
    rw [hdrop, hcons]
    simp [hc0.2]
  have htake : ((new_entry domain ip aliasA).data).takeWhile notHash =
      ip.data ++ ' ' :: (domain.data ++ [' ']) := by
    rw [hdata,
      List.takeWhile_append_of_pos
        (fun a ha => by rw [notHash_eq, (hiok a ha).2]; rfl),
      List.takeWhile_cons_of_pos (by decide),
      List.takeWhile_append_of_pos
        (fun a ha => by rw [notHash_eq, (hdok a ha).2]; rfl),
      List.takeWhile_cons_of_pos (by decide),
      show litMuko ++ ' ' :: aliasA.data =
        '#' :: (("muko:").data ++ ' ' :: aliasA.data) from rfl,
      List.takeWhile_cons_of_neg (by decide)]
  have htok : splitWsL (((new_entry domain ip aliasA).data).takeWhile notHash) =
      [ip.data, domain.data] := by
    rw [htake, splitWs_token _ (fun c hc => (hiok c hc).1) hine,
      show domain.data ++ [' '] = domain.data ++ ' ' :: [] from rfl,
      splitWs_token _ (fun c hc => (hdok c hc).1) hdne]
    rfl
  have hstr : strContains (new_entry domain ip aliasA) domain =
      isInfB domain.data (new_entry domain ip aliasA).data := rfl
  have hcontains : strContains (new_entry domain ip aliasA) domain = true := by
    rw [hstr, isInfB_iff]
    refine ⟨ip.data ++ [' '], ' ' :: (litMuko ++ ' ' :: aliasA.data), ?_⟩
    rw [hdata]
    simp
  unfold addDrop
  rw [hcontains, hcontent, htok]
  simp

/-- C3: add returns the kept lines in their original order followed by the
new managed entry as the last line; every duplicate line for the domain is
gone and exactly one line recognized as an entry for the domain remains,
the new one. -/
theorem C3_add_result {lines : List String} {domain ip : String} (aliasA : String)
    (hdne : domain.data ≠ [])
    (hdok : ∀ c ∈ domain.data, isWs c = false ∧ isHash c = false)
    (hine : ip.data ≠ [])
    (hiok : ∀ c ∈ ip.data, isWs c = false ∧ isHash c = false) :
    (add_domain lines domain ip aliasA).1 =
      lines.filter (fun l => !addDrop domain l) ++ [new_entry domain ip aliasA] ∧
    (add_domain lines domain ip aliasA).1.getLast? =
      some (new_entry domain ip aliasA) ∧
    (add_domain lines domain ip aliasA).1.filter (fun l => addDrop domain l) =
      [new_entry domain ip aliasA] := by
  have hnew := addDrop_new_entry aliasA hdne hdok hine hiok
  have h1 : (add_domain lines domain ip aliasA).1 =
      lines.filter (fun l => !addDrop domain l) ++ [new_entry domain ip aliasA] := by
    rw [add_domain_eq]
  refine ⟨h1, ?_, ?_⟩
  · rw [h1]
    exact List.getLast?_concat _
  · rw [h1, List.filter_append]
    have hfl : (lines.filter (fun l => !addDrop domain l)).filter
        (fun l => addDrop domain l) = [] := by
      rw [List.filter_filter]
      apply List.filter_eq_nil_iff.mpr
      intro a ha
      simp
    rw [hfl]
    simp [hnew]

/-- Witness for C3 on the duplicate-replacement example of the spec. -/
theorem C3_witness :
    (add_domain ["127.0.0.1 foo.test #muko: foo", "5.6.7.8 bar"] "foo.test"
        "9.9.9.9" "foo").1 =
      ["127.0.0.1 foo.test #muko: foo", "5.6.7.8 bar"].filter
          (fun l => !addDrop "foo.test" l) ++
        [new_entry "foo.test" "9.9.9.9" "foo"] ∧
    (add_domain ["127.0.0.1 foo.test #muko: foo", "5.6.7.8 bar"] "foo.test"
        "9.9.9.9" "foo").1.getLast? = some (new_entry "foo.test" "9.9.9.9" "foo") ∧
    (add_domain ["127.0.0.1 foo.test #muko: foo", "5.6.7.8 bar"] "foo.test"
        "9.9.9.9" "foo").1.filter (fun l => addDrop "foo.test" l) =
      [new_entry "foo.test" "9.9.9.9" "foo"] :=
  C3_add_result "foo" (by decide) (by decide) (by decide) (by decide)

/-! ### Extending a parse across an appended continuation (claim C9) -/

theorem takeWhile_append_stop {p : Char → Bool} {xs : List Char} (ys : List Char)
    (h : xs.dropWhile p ≠ []) :
    (xs ++ ys).takeWhile p = xs.takeWhile p ∧
    (xs ++ ys).dropWhile p = xs.dropWhile p ++ ys := by
  induction xs with
  | nil => simp at h
  | cons c t ih =>
    by_cases hc : p c = true
    · rw [List.dropWhile_cons_of_pos hc] at h
      obtain ⟨h1, h2⟩ := ih h
      constructor
      · rw [List.cons_append, List.takeWhile_cons_of_pos hc,
          List.takeWhile_cons_of_pos hc, h1]
      · rw [List.cons_append, List.dropWhile_cons_of_pos hc,
          List.dropWhile_cons_of_pos hc, h2]
    · constructor
      · rw [List.cons_append, List.takeWhile_cons_of_neg hc,
          List.takeWhile_cons_of_neg hc]
      · rw [List.cons_append, List.dropWhile_cons_of_neg hc,
          List.dropWhile_cons_of_neg hc, List.cons_append]

theorem parseGroupDot_append {xs g r : List Char} (ys : List Char)
    (h : parseGroupDot xs = some (g, r)) :
    parseGroupDot (xs ++ ys) = some (g, r ++ ys) := by
  unfold parseGroupDot at h ⊢
  split at h
  · exact absurd h (by simp)
  · next hne =>
    split at h
    · next rest heq =>
      rw [Option.some.injEq, Prod.mk.injEq] at h
      obtain ⟨hg, hr⟩ := h
      subst hg
      subst hr
      obtain ⟨h1, h2⟩ := takeWhile_append_stop ys (by rw [heq]; simp)
      rw [h1, h2, heq, List.cons_append, if_neg hne]
      rfl
    · exact absurd h (by simp)

theorem parseIPv4_append_sp {xs ip : List Char} {c0 : Char} (ys : List Char)
    (h : parseIPv4 xs = some (ip, [])) (hc0 : c0.isDigit = false) :
    parseIPv4 (xs ++ c0 :: ys) = some (ip, c0 :: ys) := by
  unfold parseIPv4 at h
  split at h
  · exact absurd h (by simp)
  · next g1 r1 h1 =>
    split at h
    · exact absurd h (by simp)
    · next g2 r2 h2 =>
      split at h
      · exact absurd h (by simp)
      · next g3 r3 h3 =>
        split at h
        · exact absurd h (by simp)
        · next hne =>
          rw [Option.some.injEq, Prod.mk.injEq] at h
          obtain ⟨hg, hr⟩ := h
          have hall : ∀ x ∈ r3, Char.isDigit x = true :=
            List.dropWhile_eq_nil_iff.mp hr
          have htk : r3.takeWhile Char.isDigit = r3 :=
            List.takeWhile_eq_self_iff.mpr hall
          have h1a : (r3 ++ c0 :: ys).takeWhile Char.isDigit = r3 := by
            rw [List.takeWhile_append_of_pos hall,
              List.takeWhile_cons_of_neg (by simp [hc0])]
            simp
          have h2a : (r3 ++ c0 :: ys).dropWhile Char.isDigit = c0 :: ys := by
            rw [List.dropWhile_append_of_pos hall,
              List.dropWhile_cons_of_neg (by simp [hc0])]
          simp only [parseIPv4, parseGroupDot_append (c0 :: ys) h1,
            parseGroupDot_append (c0 :: ys) h2,
            parseGroupDot_append (c0 :: ys) h3, h1a, h2a]
          rw [if_neg (by rw [htk] at hne; simpa using hne)]
          rw [← hg, htk]

theorem parseIPv4_none_of_hex {ip : List Char} (rest : List Char)
    (hall : ∀ c ∈ ip, isHexColon c = true) :
    parseIPv4 (ip ++ ' ' :: rest) = none := by
  suffices h : parseGroupDot (ip ++ ' ' :: rest) = none by
    unfold parseIPv4
    rw [h]
  unfold parseGroupDot
  by_cases hemp : ((ip ++ ' ' :: rest).takeWhile Char.isDigit).isEmpty = true
  · rw [if_pos hemp]
  · rw [if_neg hemp]
    split
    · next rest2 heq =>
      exfalso
      rw [List.dropWhile_append] at heq
      split at heq
      · rw [List.dropWhile_cons_of_neg (by decide)] at heq
        injection heq with e1 e2
        exact absurd e1 (by decide)
      · next hnem =>
        cases hdw : ip.dropWhile Char.isDigit with
        | nil => rw [hdw] at hnem; simp at hnem
        | cons w ws =>
          have hw : w ∈ ip := by
            refine (List.dropWhile_sublist Char.isDigit).subset ?_
            rw [hdw]
            simp
          rw [hdw, List.cons_append] at heq
          injection heq with e1 e2
          exact absurd (hall w hw) (by rw [e1]; decide)
    · rfl

/-- The continuation parse of a freshly encoded entry recovers the domain
and alias exactly. -/
theorem tailMatch_encode {d a : List Char} (hd : d ≠ [])
    (hdw : ∀ c ∈ d, isWs c = false) (haw : ∀ c ∈ a, isWs c = false) :
    tailMatch (' ' :: (d ++ ' ' :: (litMuko ++ ' ' :: a))) = some (d, a) := by
  have hnw : ∀ c ∈ d, notWs c = true := by
    intro c hc
    simp [notWs, hdw c hc]
  have hdrop1 : (' ' :: (d ++ ' ' :: (litMuko ++ ' ' :: a))).dropWhile isWs =
      d ++ ' ' :: (litMuko ++ ' ' :: a) := by
    rw [List.dropWhile_cons_of_pos (by decide)]
    apply dropWhile_eq_self_of_head
    intro c t hct
    cases d with
    | nil => exact absurd rfl hd
    | cons x xs =>
      rw [List.cons_append] at hct
      injection hct with e1 e2
      rw [← e1]
      exact hdw x (by simp)
  have htake1 : (d ++ ' ' :: (litMuko ++ ' ' :: a)).takeWhile notWs = d := by
    rw [List.takeWhile_append_of_pos hnw, List.takeWhile_cons_of_neg (by decide)]
    simp
  have hdrop2 : (d ++ ' ' :: (litMuko ++ ' ' :: a)).dropWhile notWs =
      ' ' :: (litMuko ++ ' ' :: a) := by
    rw [List.dropWhile_append_of_pos hnw, List.dropWhile_cons_of_neg (by decide)]
  have hdrop3 : (' ' :: (litMuko ++ ' ' :: a)).dropWhile isWs =
      litMuko ++ ' ' :: a := by
    rw [List.dropWhile_cons_of_pos (by decide),
      show litMuko ++ ' ' :: a = '#' :: (("muko:").data ++ ' ' :: a) from rfl]
    exact List.dropWhile_cons_of_neg (by decide)
  have hstrip : stripLit litMuko (litMuko ++ ' ' :: a) = some (' ' :: a) :=
    (stripLit_eq_some _ _ _).mpr rfl
  have hdrop4 : (' ' :: a).dropWhile isWs = a := by
    rw [List.dropWhile_cons_of_pos (by decide)]
    apply dropWhile_eq_self_of_head
    intro c t hct
    rw [hct] at haw
    exact haw c (by simp)
  have htake4 : a.takeWhile notWs = a := by
    apply List.takeWhile_eq_self_iff.mpr
    intro x hx
    simp [notWs, haw x hx]
  have hdc : d.isEmpty = false := by
    cases d with
    | nil => exact absurd rfl hd
    | cons x xs => rfl
  unfold tailMatch
  rw [hdrop1, htake1, hdrop2, hdrop3, hstrip,
    List.takeWhile_cons_of_pos (show isWs ' ' = true by decide)]
  simp [hdc, hdrop4, htake4]

/-- The body parse of a freshly encoded entry recovers ip, domain and alias. -/
theorem parseBody_new_entry {domain ip aliasA : String}
    (hip : ipv4Shape ip.data = true ∨ hexShape ip.data = true)
    (hdne : domain.data ≠ []) (hdw : ∀ c ∈ domain.data, isWs c = false)
    (haw : ∀ c ∈ aliasA.data, isWs c = false) :
    parseBody (new_entry domain ip aliasA).data =
      some (ip.data, domain.data, aliasA.data) := by
  have hdata := new_entry_data domain ip aliasA
  have hhead : ∃ c0 t0, ip.data = c0 :: t0 ∧ isHexColon c0 = true := by
    rcases hip with h | h
    · have h2 := of_decide_eq_true h
      obtain ⟨-, -, c0, t0, hct, hdg⟩ := parseIPv4_decomp h2
      exact ⟨c0, t0, hct, isDigit_isHexColon hdg⟩
    · unfold hexShape at h
      rw [Bool.and_eq_true] at h
      obtain ⟨h1, h2⟩ := h
      cases hct : ip.data with
      | nil => rw [hct] at h1; simp at h1
      | cons c0 t0 =>
        refine ⟨c0, t0, rfl, ?_⟩
        have := List.all_eq_true.mp h2 c0 (by rw [hct]; simp)
        simpa using this
  obtain ⟨c0, t0, hct, hhx⟩ := hhead
  have hdrop : (new_entry domain ip aliasA).data.dropWhile isWs =
      (new_entry domain ip aliasA).data := by
    apply dropWhile_eq_self_of_head
    intro c t hcsome
    rw [hdata, hct, List.cons_append] at hcsome
    injection hcsome with e1 e2
    rw [← e1]
    exact isHexColon_not_ws hhx
  have hencode := tailMatch_encode hdne hdw haw
  unfold parseBody
  rw [hdrop, hdata]
  rcases hip with h | h
  · have h2 := of_decide_eq_true h
    have h3 := parseIPv4_append_sp (domain.data ++ ' ' :: (litMuko ++ ' ' ::
      aliasA.data)) h2 (show (' ').isDigit = false from by decide)
    simp only [h3, hencode]
  · have hall : ∀ c ∈ ip.data, isHexColon c = true := by
      unfold hexShape at h
      rw [Bool.and_eq_true] at h
      exact List.all_eq_true.mp h.2
    have h4 := parseIPv4_none_of_hex
      (domain.data ++ ' ' :: (litMuko ++ ' ' :: aliasA.data)) hall
    have h5 : (ip.data ++ ' ' :: (domain.data ++ ' ' :: (litMuko ++ ' ' ::
        aliasA.data))).takeWhile isHexColon = ip.data := by
      rw [List.takeWhile_append_of_pos hall,
        List.takeWhile_cons_of_neg (by decide)]
      simp
    have h6 : (ip.data ++ ' ' :: (domain.data ++ ' ' :: (litMuko ++ ' ' ::
        aliasA.data))).dropWhile isHexColon =
        ' ' :: (domain.data ++ ' ' :: (litMuko ++ ' ' :: aliasA.data)) := by
      rw [List.dropWhile_append_of_pos hall,
        List.dropWhile_cons_of_neg (by decide)]
    have hic : ip.data.isEmpty = false := by
      rw [hct]
      rfl
    simp only [h4, hexAlt, parseHexColon, h5, h6, hic, Bool.false_eq_true,
      if_false, hencode]

theorem stringMk_data (s : String) : String.mk s.data = s := rfl

/-- Either lexical IP shape forces a nonempty token headed by a class
character. -/
theorem ip_shape_head {ip : String}
    (hip : ipv4Shape ip.data = true ∨ hexShape ip.data = true) :
    ∃ c0 t0, ip.data = c0 :: t0 ∧ isHexColon c0 = true := by
  rcases hip with h | h
  · have h2 := of_decide_eq_true h
    obtain ⟨-, -, c0, t0, hct, hdg⟩ := parseIPv4_decomp h2
    exact ⟨c0, t0, hct, isDigit_isHexColon hdg⟩
  · unfold hexShape at h
    rw [Bool.and_eq_true] at h
    obtain ⟨h1, h2⟩ := h
    cases hct : ip.data with
    | nil => rw [hct] at h1; simp at h1
    | cons c0 t0 =>
      refine ⟨c0, t0, rfl, ?_⟩
      have := List.all_eq_true.mp h2 c0 (by rw [hct]; simp)
      simpa using this

/-- C9: decoding the freshly encoded active line of an entry whose ip token
has one of the two lexical IP shapes and whose domain and alias are nonempty
and whitespace-free recovers exactly the original ip, domain, alias and the
active state. -/
theorem C9_roundtrip {domain ip aliasA : String}
    (hip : ipv4Shape ip.data = true ∨ hexShape ip.data = true)
    (hdne : domain.data ≠ []) (hdw : ∀ c ∈ domain.data, isWs c = false)
    (hane : aliasA.data ≠ []) (haw : ∀ c ∈ aliasA.data, isWs c = false) :
    mukoCaps (new_entry domain ip aliasA).data =
      some (MukoCaps.mk false ip.data domain.data aliasA.data) ∧
    ∀ dns, parse_muko_entries dns [new_entry domain ip aliasA] =
      [MukoManagedDomain.mk ip domain (some aliasA) true none] := by
  have hpb := parseBody_new_entry hip hdne hdw haw
  have hdata := new_entry_data domain ip aliasA
  obtain ⟨c0, t0, hct, hhx⟩ := ip_shape_head hip
  have hcons : (new_entry domain ip aliasA).data =
      c0 :: (t0 ++ ' ' :: (domain.data ++ ' ' :: (litMuko ++ ' ' ::
        aliasA.data))) := by
    rw [hdata, hct]
    rfl
  have hcaps : mukoCaps (new_entry domain ip aliasA).data =
      some (MukoCaps.mk false ip.data domain.data aliasA.data) := by
    rw [hcons]
    apply mukoCaps_some_false (isHexColon_not_hash hhx)
    rw [← hcons]
    exact hpb
  refine ⟨hcaps, ?_⟩
  intro dns
  rw [parse_muko_entries_eq]
  have hane2 : String.mk aliasA.data ≠ "" := by
    rw [stringMk_data]
    intro hA
    rw [hA] at hane
    exact hane rfl
  have hent : entryOf dns (new_entry domain ip aliasA) =
      some (MukoManagedDomain.mk ip domain (some aliasA) true none) := by
    unfold entryOf
    simp [strContains_tag hcaps, hcaps, stringMk_data, hane2]
  simp [hent]

/-- Witness for C9 on a concrete encoded entry. -/
theorem C9_witness :
    mukoCaps (new_entry "api.example.com" "10.0.0.1" "api").data =
      some (MukoCaps.mk false ("10.0.0.1").data ("api.example.com").data
        ("api").data) ∧
    parse_muko_entries (fun _ _ => none)
        [new_entry "api.example.com" "10.0.0.1" "api"] =
      [MukoManagedDomain.mk "10.0.0.1" "api.example.com" (some "api") true
        none] := by
  have h := @C9_roundtrip "api.example.com" "10.0.0.1" "api"
    (Or.inl (by decide)) (by decide) (by decide) (by decide) (by decide)
  exact ⟨h.1, h.2 (fun _ _ => none)⟩

end Muko
